import Mathlib

/-
Verification of the publicsuffix repository.

The repository holds two generations of the same design:

* `src/src/lib.rs` (with `src/src/errors.rs`): the flat `HashMap`-keyed
  implementation: `List::build`, `List::append`, `List::find_type`,
  `Domain::find_possible_matches`, `Domain::assemble`, `Domain::find_match`.
  It is embedded below under its source names (`assemble`, `findMatch`,
  `findPossibleMatches`, `appendRule`, `build`, `findType`, ...).

* the trie-based core whose `find` returns a matched byte length and a
  suffix type.  Its own `lib.rs` is not part of `src/`; only its error type
  (`src/src/error.rs`), its case-folding key (`src/src/anycase.rs`) and its
  tests (`src/tests/list.rs`) are.  That core is modelled from the spec in
  the second half of this file (definitions marked `Modelled from the spec`).

Rust strings are modelled as lists of Unicode scalar values (`List Char`,
matching Rust `char`); byte lengths are computed from UTF-8 sizes.
-/

/-- A Rust string slice, as its sequence of Unicode scalar values. -/
abbrev Str := List Char

/-- Character list of a Lean string literal. -/
def strL (s : String) : Str := s.toList

/-- UTF-8 byte size of one character (as in Rust `char::len_utf8`). -/
def utf8Sz (c : Char) : Nat :=
  if c.toNat < 128 then 1 else if c.toNat < 2048 then 2
  else if c.toNat < 65536 then 3 else 4

/-- UTF-8 byte length of a string (Rust `str::len`). -/
def byteLen (s : Str) : Nat := (s.map utf8Sz).sum

/-- Rust `str::split(sep)`: splits at every occurrence of `sep`;
the result is never empty and keeps empty pieces. -/
def splitChar (sep : Char) : Str → List Str
  | [] => [[]]
  | c :: rest =>
    if c = sep then [] :: splitChar sep rest
    else
      match splitChar sep rest with
      | [] => [[c]]
      | l :: ls => (c :: l) :: ls

/-- Rust `str::split('.')`, the label splitter used throughout `lib.rs`. -/
def splitDots (s : Str) : List Str := splitChar '.' s

/-- Rust `[..].join(".")` on a vector of labels. -/
def intercalateDots : List Str → Str
  | [] => []
  | [l] => l
  | l :: l2 :: ls => l ++ '.' :: intercalateDots (l2 :: ls)

/-- Rust `str::trim_right_matches('.')`: drops every trailing dot. -/
def trimRightDots (s : Str) : Str :=
  (s.reverse.dropWhile (fun c => c = '.')).reverse

/-- ASCII lowercasing of one character, modelling what Rust
`str::to_lowercase` does on the ASCII inputs considered here
(full Unicode case mapping is not modelled). -/
def toLowerChar (c : Char) : Char :=
  match c with
  | 'A' => 'a' | 'B' => 'b' | 'C' => 'c' | 'D' => 'd' | 'E' => 'e'
  | 'F' => 'f' | 'G' => 'g' | 'H' => 'h' | 'I' => 'i' | 'J' => 'j'
  | 'K' => 'k' | 'L' => 'l' | 'M' => 'm' | 'N' => 'n' | 'O' => 'o'
  | 'P' => 'p' | 'Q' => 'q' | 'R' => 'r' | 'S' => 's' | 'T' => 't'
  | 'U' => 'u' | 'V' => 'v' | 'W' => 'w' | 'X' => 'x' | 'Y' => 'y'
  | 'Z' => 'z' | c => c

/-- Rust `str::to_lowercase` (ASCII fragment). -/
def toLowerStr (s : Str) : Str := s.map toLowerChar

/-- The two rule sections of the public suffix list (`Type` in `lib.rs`). -/
inductive PslType where
  | Icann
  | Private
deriving DecidableEq

/-- One stored rule (`struct Suffix` in `lib.rs`). -/
structure Suffix where
  rule : Str
  typ : PslType
deriving DecidableEq

/-- The parse result (`struct Domain` in `lib.rs`). -/
structure Domain where
  full : Str
  typ : Option PslType
  suffix : Option Str
  registrable : Option Str
deriving DecidableEq

/-- The rule store (`struct List` in `lib.rs`): a map from a rule's
rightmost label to the bucket of rules sharing it.  The `HashMap` is
modelled as an association list; only `get` order matters for lookups. -/
structure PslList where
  rules : List (Str × List Suffix)
deriving DecidableEq

/-- `HashMap::get` on the modelled map. -/
def lookupBucket : List (Str × List Suffix) → Str → Option (List Suffix)
  | [], _ => none
  | (k, v) :: rest, key => if k = key then some v else lookupBucket rest key

/-- `Domain::assemble` from `lib.rs` lines 344-355: lowercase the raw
input, strip trailing dots, split into labels reversed, then slice the
first `sLen` of them and join back with dots.  The Rust slice
`&d_labels[..s_len]` panics when `s_len` exceeds the label count; the
panic is represented by `none`. -/
def assemble (input : Str) (sLen : Nat) : Option Str :=
  let dLabels := (splitDots (trimRightDots (toLowerStr input))).reverse
  if sLen ≤ dLabels.length then
    some (intercalateDots ((dLabels.take sLen).reverse))
  else none

/-- The mutable state of the candidate loop in `Domain::find_match`
(`registrable`, `suffix`, `typ`, `num_labels`). -/
structure MState where
  registrable : Option Str
  suffix : Option Str
  typ : Option PslType
  numLabels : Nat
deriving DecidableEq

/-- Initial loop state of `Domain::find_match`. -/
def mInit : MState := ⟨none, none, none, 0⟩

/-- The inner label loop of `Domain::find_match` (lines 370-393): walk the
candidate rule's reversed labels with index `i`; on a mismatch break; at
the last index, when the candidate has at least `numLabels` labels,
record type, suffix and registrable root.  `none` represents a panic
raised inside `Domain::assemble`. -/
def matchStep (input : Str) (dLabels : List Str) (cTyp : PslType) (sLen : Nat) :
    List Str → Nat → MState → Option MState
  | [], _, st => some st
  | label :: rest, i, st =>
    if label = dLabels.getD i [] ∨ label = ['*'] ∨
        label.dropWhile (fun c => c = '!') = dLabels.getD i [] then
      if i = sLen - 1 then
        if st.numLabels ≤ sLen then
          let sl := if label.head? = some '!' then sLen - 1 else sLen
          match assemble input sl with
          | none => none
          | some suf =>
            if sl < dLabels.length then
              match assemble input (sl + 1) with
              | none => none
              | some reg =>
                matchStep input dLabels cTyp sLen rest (i + 1)
                  ⟨some reg, some suf, some cTyp, sLen⟩
            else
              matchStep input dLabels cTyp sLen rest (i + 1)
                ⟨none, some suf, some cTyp, sLen⟩
        else matchStep input dLabels cTyp sLen rest (i + 1) st
      else matchStep input dLabels cTyp sLen rest (i + 1) st
    else some st

/-- The outer candidate loop of `Domain::find_match` (lines 367-394):
candidates with more labels than the domain are skipped. -/
def candLoop (input : Str) (dLabels : List Str) :
    List Suffix → MState → Option MState
  | [], st => some st
  | c :: cs, st =>
    let sLabels := (splitDots c.rule).reverse
    if dLabels.length < sLabels.length then candLoop input dLabels cs st
    else
      match matchStep input dLabels c.typ sLabels.length sLabels 0 st with
      | none => none
      | some st2 => candLoop input dLabels cs st2

/-- `Domain::find_match` from `lib.rs` lines 357-407.  The Rust function
returns `Result` but never constructs an error; `none` here represents a
panic inside `Domain::assemble` (out-of-bounds slice). -/
def findMatch (input domain : Str) (candidates : List Suffix) : Option Domain :=
  let dLabels := (splitDots domain).reverse
  match candLoop input dLabels candidates mInit with
  | none => none
  | some st =>
    if st.suffix = none ∧ 1 < dLabels.length ∧ candidates = [] then
      match assemble input 1, assemble input 2 with
      | some s, some r => some ⟨input, st.typ, some s, some r⟩
      | _, _ => none
    else some ⟨input, st.typ, st.suffix, st.registrable⟩

/-- Rust `rsplit('.').next()`: the rightmost dot-separated label. -/
def lastLabel (s : Str) : Str := (splitDots s).reverse.headD []

/-- `Domain::find_possible_matches` from `lib.rs` lines 324-342: the
bucket keyed by the domain's rightmost label, or nothing. -/
def findPossibleMatches (domain : Str) (l : PslList) : List Suffix :=
  let tld := lastLabel domain
  if tld = [] then []
  else
    match lookupBucket l.rules tld with
    | none => []
    | some cs => cs

/-- `Domain::parse` / `List::parse_domain` for inputs on which UTS46
processing is the identity (lowercase ASCII, no trailing dot): syntax
validation and `domain_to_unicode` are then no-ops and `find_match`
receives the same string as both `input` and `domain`. -/
def parseNoIdna (l : PslList) (domain : Str) : Option Domain :=
  findMatch domain domain (findPossibleMatches domain l)

instance {e a : Type} [DecidableEq e] [DecidableEq a] : DecidableEq (Except e a) :=
  fun x y =>
  match x, y with
  | .error u, .error v => decidable_of_iff (u = v) (by simp)
  | .error _, .ok _ => isFalse (by simp)
  | .ok _, .error _ => isFalse (by simp)
  | .ok u, .ok v => decidable_of_iff (u = v) (by simp)

/-- `HashMap::entry(tld).or_insert(Vec::new()).push(..)`: append the rule
to the bucket of its key, creating the bucket if absent (a fresh key's
position in the map does not affect `get`). -/
def insertBucket : List (Str × List Suffix) → Str → Suffix → List (Str × List Suffix)
  | [], k, s => [(k, [s])]
  | (k2, v) :: rest, k, s =>
    if k2 = k then (k2, v ++ [s]) :: rest
    else (k2, v) :: insertBucket rest k s

/-- Construction-time errors of `lib.rs` (`ErrorKind` in `errors.rs`,
restricted to the variants `List::build` can produce). -/
inductive BuildErr where
  | invalidList
  | invalidRule (r : Str)
deriving DecidableEq

/-- `List::append` from `lib.rs` lines 158-174: key the rule under its
rightmost label, rejecting an empty key. -/
def appendRule (l : PslList) (rule : Str) (typ : PslType) : Except BuildErr PslList :=
  let tld := lastLabel rule
  if tld = [] then .error (.invalidRule rule)
  else .ok ⟨insertBucket l.rules tld ⟨rule, typ⟩⟩

/-- Rust `str::starts_with(pat)` on the model. -/
def startsWithStr : Str → Str → Bool
  | _, [] => true
  | [], _ :: _ => false
  | c :: cs, p :: ps => c = p && startsWithStr cs ps

/-- Rust `str::contains(pat)` on the model. -/
def containsStr : Str → Str → Bool
  | [], pat => startsWithStr [] pat
  | c :: rest, pat => startsWithStr (c :: rest) pat || containsStr rest pat

/-- Rust `split_whitespace().next()`: the first maximal run of
non-whitespace characters, if any. -/
def firstToken (line : Str) : Option Str :=
  match line.dropWhile Char.isWhitespace with
  | [] => none
  | c :: cs => some ((c :: cs).takeWhile (fun x => !x.isWhitespace))

/-- The ICANN section marker searched for by `List::build`. -/
def icannMarker : Str := strL "BEGIN ICANN DOMAINS"

/-- The private section marker searched for by `List::build`. -/
def privateMarker : Str := strL "BEGIN PRIVATE DOMAINS"

/-- One iteration of the line loop in `List::build` (lines 181-199):
marker lines switch the current section (checked before the comment
test), other comment lines are skipped, otherwise the first whitespace
token is appended as a rule when a section is active. -/
def buildLine (st : Option PslType × PslList) (line : Str) :
    Except BuildErr (Option PslType × PslList) :=
  if containsStr line icannMarker then .ok (some .Icann, st.2)
  else if containsStr line privateMarker then .ok (some .Private, st.2)
  else if startsWithStr line (strL "//") then .ok st
  else
    match firstToken line with
    | none => .ok st
    | some rule =>
      match st.1 with
      | none => .ok st
      | some t =>
        match appendRule st.2 rule t with
        | .error e => .error e
        | .ok l2 => .ok (st.1, l2)

/-- The full line loop of `List::build`, threading section and map. -/
def buildFold : List Str → (Option PslType × PslList) →
    Except BuildErr (Option PslType × PslList)
  | [], st => .ok st
  | line :: rest, st =>
    match buildLine st line with
    | .error e => .error e
    | .ok st2 => buildFold rest st2

/-- `List::find_type` from `lib.rs` lines 245-255: collect the rules of
one section across all buckets. -/
def findType (rules : List (Str × List Suffix)) (t : PslType) : List Str :=
  rules.foldl
    (fun acc kv => acc ++ (kv.2.filter (fun s => s.typ = t)).map Suffix.rule) []

/-- `List::icann` from `lib.rs`. -/
def icannRules (l : PslList) : List Str := findType l.rules .Icann

/-- `List::private` from `lib.rs`. -/
def privateRules (l : PslList) : List Str := findType l.rules .Private

/-- `List::build` from `lib.rs` lines 176-204, taking the line list: run
the line loop, then reject a result with no rules, no ICANN rules, or no
private rules. -/
def build (lines : List Str) : Except BuildErr PslList :=
  match buildFold lines (none, ⟨[]⟩) with
  | .error e => .error e
  | .ok (_, l) =>
    if l.rules = [] ∨ icannRules l = [] ∨ privateRules l = [] then
      .error .invalidList
    else .ok l

/-- Rust `str::lines`: split on newline, strip a trailing carriage
return from each line, and ignore a final empty piece. -/
def linesOf (s : Str) : List Str :=
  let ls := (splitChar '\n' s).map
    (fun l => if l.getLast? = some '\r' then l.dropLast else l)
  if ls.getLast? = some [] then ls.dropLast else ls

/-- `List::build` on raw text (`res.lines()` then the line loop). -/
def buildText (s : Str) : Except BuildErr PslList := build (linesOf s)

theorem splitChar_ne_nil (sep : Char) (s : Str) : splitChar sep s ≠ [] := by
  cases s with
  | nil => simp [splitChar]
  | cons c rest =>
    unfold splitChar
    by_cases h : c = sep
    · simp [h]
    · simp only [if_neg h]
      cases hs : splitChar sep rest <;> simp

theorem splitChar_append_sep (sep : Char) (l r : Str) (h : sep ∉ l) :
    splitChar sep (l ++ sep :: r) = l :: splitChar sep r := by
  induction l with
  | nil => simp [splitChar]
  | cons c cs ih =>
    have hc : ¬c = sep := fun hh => h (hh ▸ List.mem_cons_self c cs)
    have hcs : sep ∉ cs := fun hh => h (List.mem_cons_of_mem c hh)
    show splitChar sep (c :: (cs ++ sep :: r)) = _
    rw [splitChar, if_neg hc, ih hcs]

theorem splitChar_of_not_mem (sep : Char) (s : Str) (h : sep ∉ s) :
    splitChar sep s = [s] := by
  induction s with
  | nil => rfl
  | cons c cs ih =>
    have hc : ¬c = sep := fun hh => h (hh ▸ List.mem_cons_self c cs)
    have hcs : sep ∉ cs := fun hh => h (List.mem_cons_of_mem c hh)
    simp only [splitChar, if_neg hc, ih hcs]

theorem mem_splitChar_not_sep (sep : Char) (s : Str) :
    ∀ p ∈ splitChar sep s, sep ∉ p := by
  induction s with
  | nil =>
    intro p hp
    simp only [splitChar, List.mem_singleton] at hp
    subst hp
    simp
  | cons c rest ih =>
    intro p hp
    unfold splitChar at hp
    by_cases h : c = sep
    · simp only [if_pos h, List.mem_cons] at hp
      rcases hp with hp | hp
      · subst hp; simp
      · exact ih p hp
    · simp only [if_neg h] at hp
      cases hs : splitChar sep rest with
      | nil => exact absurd hs (splitChar_ne_nil sep rest)
      | cons l ls =>
        rw [hs] at hp
        rcases List.mem_cons.mp hp with hp | hp
        · subst hp
          intro hmem
          rcases List.mem_cons.mp hmem with hmem | hmem
          · exact h hmem.symm
          · exact ih l (hs ▸ List.mem_cons_self l ls) hmem
        · exact ih p (hs ▸ List.mem_cons_of_mem l hp)

theorem mem_of_mem_splitChar (sep : Char) (s : Str) :
    ∀ p ∈ splitChar sep s, ∀ c ∈ p, c ∈ s := by
  induction s with
  | nil =>
    intro p hp c hc
    simp only [splitChar, List.mem_singleton] at hp
    subst hp
    cases hc
  | cons a rest ih =>
    intro p hp c hc
    unfold splitChar at hp
    by_cases h : a = sep
    · simp only [if_pos h, List.mem_cons] at hp
      rcases hp with hp | hp
      · subst hp; cases hc
      · exact List.mem_cons_of_mem a (ih p hp c hc)
    · simp only [if_neg h] at hp
      cases hs : splitChar sep rest with
      | nil => exact absurd hs (splitChar_ne_nil sep rest)
      | cons l ls =>
        rw [hs] at hp
        rcases List.mem_cons.mp hp with hp | hp
        · subst hp
          rcases List.mem_cons.mp hc with hc | hc
          · exact hc ▸ List.mem_cons_self a rest
          · exact List.mem_cons_of_mem a
              (ih l (hs ▸ List.mem_cons_self l ls) c hc)
        · exact List.mem_cons_of_mem a
            (ih p (hs ▸ List.mem_cons_of_mem l hp) c hc)

theorem splitDots_intercalate (ps : List Str) (hne : ps ≠ [])
    (hdf : ∀ p ∈ ps, '.' ∉ p) : splitDots (intercalateDots ps) = ps := by
  induction ps with
  | nil => exact absurd rfl hne
  | cons p ps ih =>
    cases ps with
    | nil =>
      exact splitChar_of_not_mem '.' p (hdf p (List.mem_cons_self p []))
    | cons q qs =>
      show splitChar '.' (p ++ '.' :: intercalateDots (q :: qs)) = _
      rw [splitChar_append_sep '.' p _ (hdf p (List.mem_cons_self _ _))]
      have := ih (by simp)
        (fun r hr => hdf r (List.mem_cons_of_mem p hr))
      rw [show splitChar '.' (intercalateDots (q :: qs)) =
        splitDots (intercalateDots (q :: qs)) from rfl, this]

theorem toLowerChar_eq_dot {c : Char} (h : toLowerChar c = '.') : c = '.' := by
  unfold toLowerChar at h
  split at h <;> simp_all

theorem not_mem_dot_toLowerStr {l : Str} (h : '.' ∉ l) : '.' ∉ toLowerStr l := by
  intro hm
  obtain ⟨c, hc, he⟩ := List.mem_map.mp hm
  exact h (toLowerChar_eq_dot he ▸ hc)

theorem splitDots_toLowerStr (s : Str) :
    splitDots (toLowerStr s) = (splitDots s).map toLowerStr := by
  induction s with
  | nil => rfl
  | cons c rest ih =>
    show splitChar '.' (toLowerChar c :: toLowerStr rest) = _
    by_cases h : c = '.'
    · subst h
      show splitChar '.' ('.' :: toLowerStr rest) = _
      simp only [splitChar, if_pos rfl]
      rw [show splitChar '.' (toLowerStr rest) = splitDots (toLowerStr rest)
        from rfl, ih]
      rfl
    · have h2 : ¬toLowerChar c = '.' := fun hh => h (toLowerChar_eq_dot hh)
      simp only [splitChar, if_neg h, if_neg h2]
      rw [show splitChar '.' (toLowerStr rest) = splitDots (toLowerStr rest)
        from rfl, ih]
      cases hs : splitChar '.' rest with
      | nil => exact absurd hs (splitChar_ne_nil '.' rest)
      | cons l ls =>
        rw [show splitDots rest = splitChar '.' rest from rfl, hs]
        have hrhs : splitDots (c :: rest) = (c :: l) :: ls := by
          show splitChar '.' (c :: rest) = _
          rw [splitChar, if_neg h, hs]
        rw [hrhs]
        rfl

theorem trimRightDots_of_getLast (s : Str) (h : s.getLast? ≠ some '.') :
    trimRightDots s = s := by
  unfold trimRightDots
  cases hs : s.reverse with
  | nil =>
    have hsnil : s = [] := by simpa using congrArg List.reverse hs
    rw [hsnil]
    rfl
  | cons c cs =>
    have hc : ¬c = '.' := by
      intro hh
      apply h
      rw [List.getLast?_eq_head?_reverse, hs, hh]
      rfl
    have hd : List.dropWhile (fun x => decide (x = '.')) (c :: cs) = c :: cs := by
      rw [List.dropWhile_cons]
      simp [hc]
    rw [hd, ← hs, List.reverse_reverse]

/-- C4: against the single wildcard rule `*.example.com`, `find_match`
on a domain `lab.example.com` (any non-empty, dot-free label `lab` not
starting with the exception marker) returns exactly the result it
returns against the literal rule `lab.example.com`; in particular the
matched suffix and its length coincide. -/
theorem c4_wildcard_matches_like_literal (lab : Str) (t : PslType)
    (hne : lab ≠ []) (hdot : '.' ∉ lab) (hbang : ¬lab.head? = some '!') :
    findMatch (lab ++ '.' :: strL "example.com")
        (lab ++ '.' :: strL "example.com") [⟨strL "*.example.com", t⟩] =
      findMatch (lab ++ '.' :: strL "example.com")
        (lab ++ '.' :: strL "example.com") [⟨lab ++ '.' :: strL "example.com", t⟩] := by
  have hsplit : splitDots (lab ++ '.' :: strL "example.com") =
      [lab, strL "example", strL "com"] := by
    show splitChar '.' (lab ++ '.' :: strL "example.com") = _
    rw [splitChar_append_sep '.' lab _ hdot]
    rw [show splitChar '.' (strL "example.com") = [strL "example", strL "com"]
      from by decide]
  have hdrev : (splitDots (lab ++ '.' :: strL "example.com")).reverse =
      [strL "com", strL "example", lab] := by
    rw [hsplit]
    rfl
  have hwrev : (splitDots (strL "*.example.com")).reverse =
      [strL "com", strL "example", strL "*"] := by decide
  have hlen : ([strL "com", strL "example", lab] : List Str).length = 3 := rfl
  have hlenw : ([strL "com", strL "example", strL "*"] : List Str).length = 3 := rfl
  have h33 : ((3 : Nat) < 3) = False := by simp
  have hf1 : (([⟨strL "*.example.com", t⟩] : List Suffix) = []) = False := by simp
  have hf2 : (([⟨lab ++ '.' :: strL "example.com", t⟩] : List Suffix) = []) = False := by
    simp
  simp only [findMatch, candLoop, hdrev, hwrev, hlen, hlenw, h33, if_false,
    hf1, hf2, and_false]
  have e1 : matchStep (lab ++ '.' :: strL "example.com")
      [strL "com", strL "example", lab] t 3
      [strL "com", strL "example", strL "*"] 0 mInit =
    matchStep (lab ++ '.' :: strL "example.com")
      [strL "com", strL "example", lab] t 3 [strL "*"] 2 mInit := rfl
  have e2 : matchStep (lab ++ '.' :: strL "example.com")
      [strL "com", strL "example", lab] t 3
      [strL "com", strL "example", lab] 0 mInit =
    matchStep (lab ++ '.' :: strL "example.com")
      [strL "com", strL "example", lab] t 3 [lab] 2 mInit := rfl
  rw [e1, e2]
  simp only [matchStep]
  have hgetD : ([strL "com", strL "example", lab] : List Str).getD 2 [] = lab := rfl
  simp only [hgetD]
  have hCw : strL "*" = lab ∨ (strL "*" : Str) = ['*'] ∨
      (strL "*").dropWhile (fun c => c = '!') = lab :=
    Or.inr (Or.inl (by decide))
  have hCl : lab = lab ∨ (lab : Str) = ['*'] ∨
      lab.dropWhile (fun c => c = '!') = lab := Or.inl rfl
  rw [if_pos hCw]
  simp only [true_or, if_true]
  simp only [show (List.head? (strL "*") = some '!') = False from by decide,
    show (List.head? lab = some '!') = False from eq_false hbang, if_false]

/-- Witness for C4 at the label `anything`: both lookups match, with the
full domain as the suffix in both cases. -/
theorem c4_wildcard_matches_like_literal_witness :
    strL "anything" ≠ [] ∧ '.' ∉ strL "anything" ∧
      ¬(strL "anything").head? = some '!' ∧
    findMatch (strL "anything" ++ '.' :: strL "example.com")
        (strL "anything" ++ '.' :: strL "example.com")
        [⟨strL "*.example.com", PslType.Icann⟩] =
      findMatch (strL "anything" ++ '.' :: strL "example.com")
        (strL "anything" ++ '.' :: strL "example.com")
        [⟨strL "anything" ++ '.' :: strL "example.com", PslType.Icann⟩] ∧
    findMatch (strL "anything.example.com") (strL "anything.example.com")
        [⟨strL "*.example.com", PslType.Icann⟩] =
      some ⟨strL "anything.example.com", some PslType.Icann,
        some (strL "anything.example.com"), none⟩ :=
  ⟨by decide, by decide, by decide,
   c4_wildcard_matches_like_literal (strL "anything") PslType.Icann
     (by decide) (by decide) (by decide),
   by decide⟩

theorem buildLine_no_rule (st : Option PslType × PslList) (line : Str)
    (h : startsWithStr line (strL "//") = true ∨ firstToken line = none) :
    ∃ typ2, buildLine st line = .ok (typ2, st.2) := by
  unfold buildLine
  by_cases hic : containsStr line icannMarker = true
  · exact ⟨some .Icann, by simp [hic]⟩
  · by_cases hpr : containsStr line privateMarker = true
    · exact ⟨some .Private, by simp [hic, hpr]⟩
    · by_cases hsw : startsWithStr line (strL "//") = true
      · exact ⟨st.1, by simp [hic, hpr, hsw]⟩
      · have hft : firstToken line = none := by
          rcases h with h | h
          · exact absurd h hsw
          · exact h
        exact ⟨st.1, by simp [hic, hpr, hsw, hft]⟩

theorem buildFold_no_rule_lines (lines : List Str) :
    ∀ (typ : Option PslType) (m : PslList),
    (∀ l ∈ lines, startsWithStr l (strL "//") = true ∨ firstToken l = none) →
    ∃ typ2, buildFold lines (typ, m) = .ok (typ2, m) := by
  induction lines with
  | nil => exact fun typ m _ => ⟨typ, rfl⟩
  | cons line rest ih =>
    intro typ m h
    obtain ⟨t2, hline⟩ := buildLine_no_rule (typ, m) line (h line (by simp))
    obtain ⟨t3, hrest⟩ := ih t2 m (fun l hl => h l (by simp [hl]))
    refine ⟨t3, ?_⟩
    unfold buildFold
    rw [hline]
    exact hrest

/-- C6: building from text made only of comment lines and blank or
whitespace-only lines fails with the `InvalidList` error; the failed
construction yields no list value at all. -/
theorem c6_comments_only_invalid (text : Str)
    (h : ∀ l ∈ linesOf text,
      startsWithStr l (strL "//") = true ∨ firstToken l = none) :
    buildText text = .error .invalidList := by
  obtain ⟨t2, hf⟩ := buildFold_no_rule_lines (linesOf text) none ⟨[]⟩ h
  unfold buildText build
  rw [hf]
  rfl

/-- Witness for C6 on a concrete comments-and-blanks text. -/
theorem c6_comments_only_invalid_witness :
    buildText (strL "// a comment\n\n// another\n") = .error .invalidList :=
  c6_comments_only_invalid (strL "// a comment\n\n// another\n") (by decide)

/-- Every rule stored in the map belongs to section `t`. -/
def allSuffixTypL (rules : List (Str × List Suffix)) (t : PslType) : Prop :=
  ∀ kv ∈ rules, ∀ s ∈ kv.2, s.typ = t

theorem insertBucket_all {rules : List (Str × List Suffix)} {k : Str}
    {s : Suffix} {t : PslType} (hr : allSuffixTypL rules t) (hs : s.typ = t) :
    allSuffixTypL (insertBucket rules k s) t := by
  induction rules with
  | nil =>
    intro kv hkv s2 hs2
    simp only [insertBucket, List.mem_singleton] at hkv
    subst hkv
    simp only [List.mem_singleton] at hs2
    subst hs2
    exact hs
  | cons kv0 rest ih =>
    obtain ⟨k0, v0⟩ := kv0
    intro kv hkv s2 hs2
    simp only [insertBucket] at hkv
    by_cases hk : k0 = k
    · rw [if_pos hk] at hkv
      rcases List.mem_cons.mp hkv with h | h
      · subst h
        rcases List.mem_append.mp hs2 with h2 | h2
        · exact hr (k0, v0) (List.mem_cons_self _ _) s2 h2
        · simp only [List.mem_singleton] at h2
          subst h2
          exact hs
      · exact hr kv (List.mem_cons_of_mem _ h) s2 hs2
    · rw [if_neg hk] at hkv
      rcases List.mem_cons.mp hkv with h | h
      · subst h
        exact hr (k0, v0) (List.mem_cons_self _ _) s2 hs2
      · exact ih (fun kv2 h2 => hr kv2 (List.mem_cons_of_mem _ h2)) kv h s2 hs2

theorem findType_aux (t2 : PslType) (rules : List (Str × List Suffix)) :
    ∀ acc : List Str, (∀ kv ∈ rules, ∀ s ∈ kv.2, ¬s.typ = t2) →
    rules.foldl
      (fun acc kv => acc ++ (kv.2.filter (fun s => s.typ = t2)).map Suffix.rule)
      acc = acc := by
  induction rules with
  | nil => intro acc _; rfl
  | cons kv0 rest ih =>
    intro acc h
    have hfil : kv0.2.filter (fun s => s.typ = t2) = [] := by
      apply List.filter_eq_nil_iff.mpr
      intro s hs
      simp only [decide_eq_true_eq]
      exact h kv0 (List.mem_cons_self _ _) s hs
    simp only [List.foldl_cons, hfil, List.map_nil, List.append_nil]
    exact ih acc (fun kv h2 => h kv (List.mem_cons_of_mem _ h2))

theorem findType_eq_nil {rules : List (Str × List Suffix)} {t t2 : PslType}
    (hne : t ≠ t2) (h : allSuffixTypL rules t) : findType rules t2 = [] := by
  unfold findType
  exact findType_aux t2 rules []
    (fun kv hkv s hs => by rw [h kv hkv s hs]; exact hne)

theorem buildFold_icann_only (lines : List Str) :
    ∀ (typ : Option PslType) (m : PslList) (st : Option PslType × PslList),
    (∀ l ∈ lines, containsStr l privateMarker = false) →
    (typ = none ∨ typ = some .Icann) → allSuffixTypL m.rules .Icann →
    buildFold lines (typ, m) = .ok st → allSuffixTypL st.2.rules .Icann := by
  induction lines with
  | nil =>
    intro typ m st _ _ hm hf
    injection hf with hf
    rw [← hf]
    exact hm
  | cons line rest ih =>
    intro typ m st h htyp hm hf
    have hrest : ∀ l ∈ rest, containsStr l privateMarker = false :=
      fun l hl => h l (by simp [hl])
    unfold buildFold buildLine at hf
    by_cases hic : containsStr line icannMarker = true
    · simp only [hic, if_pos rfl] at hf
      exact ih (some .Icann) m st hrest (Or.inr rfl) hm hf
    · have hpr : ¬containsStr line privateMarker = true := by
        rw [h line (List.mem_cons_self _ _)]; simp
      by_cases hsw : startsWithStr line (strL "//") = true
      · simp only [hic, hpr, hsw, if_neg, if_pos rfl] at hf
        exact ih typ m st hrest htyp hm hf
      · cases hft : firstToken line with
        | none =>
          simp only [hic, hpr, hsw, hft, if_neg] at hf
          exact ih typ m st hrest htyp hm hf
        | some rule =>
          rcases htyp with htyp | htyp
          · simp only [hic, hpr, hsw, hft, htyp, if_neg] at hf
            exact ih none m st hrest (Or.inl rfl) hm hf
          · simp only [hic, hpr, hsw, hft, htyp, if_neg] at hf
            unfold appendRule at hf
            by_cases htld : lastLabel rule = []
            · simp [htld] at hf
            · simp only [htld, if_neg] at hf
              exact ih (some .Icann) ⟨insertBucket m.rules (lastLabel rule)
                  ⟨rule, .Icann⟩⟩ st hrest (Or.inr rfl)
                (insertBucket_all hm rfl) hf

theorem buildFold_private_only (lines : List Str) :
    ∀ (typ : Option PslType) (m : PslList) (st : Option PslType × PslList),
    (∀ l ∈ lines, containsStr l icannMarker = false) →
    (typ = none ∨ typ = some .Private) → allSuffixTypL m.rules .Private →
    buildFold lines (typ, m) = .ok st → allSuffixTypL st.2.rules .Private := by
  induction lines with
  | nil =>
    intro typ m st _ _ hm hf
    injection hf with hf
    rw [← hf]
    exact hm
  | cons line rest ih =>
    intro typ m st h htyp hm hf
    have hrest : ∀ l ∈ rest, containsStr l icannMarker = false :=
      fun l hl => h l (by simp [hl])
    unfold buildFold buildLine at hf
    have hic : ¬containsStr line icannMarker = true := by
      rw [h line (List.mem_cons_self _ _)]; simp
    by_cases hpr : containsStr line privateMarker = true
    · simp only [hic, hpr, if_neg, if_pos rfl] at hf
      exact ih (some .Private) m st hrest (Or.inr rfl) hm hf
    · by_cases hsw : startsWithStr line (strL "//") = true
      · simp only [hic, hpr, hsw, if_neg, if_pos rfl] at hf
        exact ih typ m st hrest htyp hm hf
      · cases hft : firstToken line with
        | none =>
          simp only [hic, hpr, hsw, hft, if_neg] at hf
          exact ih typ m st hrest htyp hm hf
        | some rule =>
          rcases htyp with htyp | htyp
          · simp only [hic, hpr, hsw, hft, htyp, if_neg] at hf
            exact ih none m st hrest (Or.inl rfl) hm hf
          · simp only [hic, hpr, hsw, hft, htyp, if_neg] at hf
            unfold appendRule at hf
            by_cases htld : lastLabel rule = []
            · simp [htld] at hf
            · simp only [htld, if_neg] at hf
              exact ih (some .Private) ⟨insertBucket m.rules (lastLabel rule)
                  ⟨rule, .Private⟩⟩ st hrest (Or.inr rfl)
                (insertBucket_all hm rfl) hf

/-- C10: when the text has no ICANN section marker, or no private
section marker, every parsed rule falls in a single section, and
`List::build` rejects the result with `InvalidList` even when the rule
parsing itself succeeded. -/
theorem c10_single_section_invalid (lines : List Str)
    (st : Option PslType × PslList)
    (hm : (∀ l ∈ lines, containsStr l icannMarker = false) ∨
          (∀ l ∈ lines, containsStr l privateMarker = false))
    (hf : buildFold lines (none, ⟨[]⟩) = .ok st) :
    build lines = .error .invalidList := by
  obtain ⟨tS, mS⟩ := st
  unfold build
  rw [hf]
  rcases hm with hm | hm
  · have hall : allSuffixTypL mS.rules .Private :=
      buildFold_private_only lines none ⟨[]⟩ (tS, mS) hm (Or.inl rfl)
        (fun kv hkv => by cases hkv) hf
    have hi : icannRules mS = [] :=
      findType_eq_nil (by simp) hall
    simp only [icannRules] at hi
    simp [icannRules, hi]
  · have hall : allSuffixTypL mS.rules .Icann :=
      buildFold_icann_only lines none ⟨[]⟩ (tS, mS) hm (Or.inl rfl)
        (fun kv hkv => by cases hkv) hf
    have hp : privateRules mS = [] :=
      findType_eq_nil (by simp) hall
    simp only [privateRules] at hp
    simp [privateRules, hp]

/-- An ICANN-only list text. -/
def icannOnlyLines : List Str :=
  [strL "// BEGIN ICANN DOMAINS", strL "com", strL "uk.com"]

/-- Witness for C10: an ICANN-only text with two usable rules is
rejected with `InvalidList`. -/
theorem c10_single_section_invalid_witness :
    build icannOnlyLines = .error .invalidList :=
  c10_single_section_invalid icannOnlyLines
    (some .Icann,
     ⟨[(strL "com", [⟨strL "com", .Icann⟩, ⟨strL "uk.com", .Icann⟩])]⟩)
    (Or.inr (by decide)) (by decide)

/-- Every bucket key of the map is the rightmost label of each rule it
holds: the invariant `List::append` establishes. -/
def bucketsWellFormed (l : PslList) : Prop :=
  ∀ kv ∈ l.rules, ∀ s ∈ kv.2, lastLabel s.rule = kv.1

/-- The relationship between `registrable` and `suffix` maintained by
the `find_match` loop: no suffix means no root, and with a suffix the
root is present exactly when the domain has more labels than the
suffix. -/
def rootInv (dLabels : List Str) (st : MState) : Prop :=
  match st.suffix with
  | none => st.registrable = none
  | some suf =>
    st.registrable.isSome = true ↔ (splitDots suf).length < dLabels.length

theorem assemble_eq (domain : Str) (hlower : toLowerStr domain = domain)
    (htrim : trimRightDots domain = domain) (k : Nat) :
    assemble domain k =
      if k ≤ (splitDots domain).reverse.length then
        some (intercalateDots (((splitDots domain).reverse.take k).reverse))
      else none := by
  simp only [assemble, hlower, htrim]

theorem assembled_label_count (dLabels : List Str) (domain : Str)
    (hdl : dLabels = (splitDots domain).reverse) (k : Nat)
    (hk1 : 1 ≤ k) (hk2 : k ≤ dLabels.length) :
    (splitDots (intercalateDots ((dLabels.take k).reverse))).length = k := by
  have hsub : ∀ p ∈ (dLabels.take k).reverse, '.' ∉ p := by
    intro p hp
    have hp2 : p ∈ dLabels.take k := List.mem_reverse.mp hp
    have hp3 : p ∈ dLabels := List.take_subset k dLabels hp2
    rw [hdl] at hp3
    exact mem_splitChar_not_sep '.' domain p (List.mem_reverse.mp hp3)
  have hlen : ((dLabels.take k).reverse).length = k := by
    rw [List.length_reverse, List.length_take]
    omega
  have hne : (dLabels.take k).reverse ≠ [] := by
    intro hh
    rw [hh] at hlen
    simp at hlen
    omega
  rw [splitDots_intercalate _ hne hsub, hlen]

theorem lookupBucket_mem (rules : List (Str × List Suffix)) (key : Str)
    (v : List Suffix) (h : lookupBucket rules key = some v) : (key, v) ∈ rules := by
  induction rules with
  | nil => cases h
  | cons kv rest ih =>
    obtain ⟨k0, v0⟩ := kv
    unfold lookupBucket at h
    by_cases hk : k0 = key
    · rw [if_pos hk] at h
      injection h with h
      rw [← hk, ← h]
      exact List.mem_cons_self _ _
    · rw [if_neg hk] at h
      exact List.mem_cons_of_mem _ (ih h)

theorem head_not_bang (domain : Str) (hbang : '!' ∉ domain) (p : Str)
    (hp : p ∈ splitDots domain) : ¬p.head? = some '!' := by
  intro hh
  cases p with
  | nil => cases hh
  | cons c cs =>
    injection hh with hh
    exact hbang (hh ▸ mem_of_mem_splitChar '.' domain (c :: cs) hp c
      (List.mem_cons_self c cs))

theorem matchStep_rootInv (domain : Str) (dLabels : List Str) (cTyp : PslType)
    (sLabels : List Str)
    (hassem : ∀ k, assemble domain k =
      if k ≤ dLabels.length then
        some (intercalateDots ((dLabels.take k).reverse)) else none)
    (hcount : ∀ k, 1 ≤ k → k ≤ dLabels.length →
      (splitDots (intercalateDots ((dLabels.take k).reverse))).length = k)
    (hlen : sLabels.length ≤ dLabels.length)
    (hone : sLabels.length = 1 → ¬(sLabels.headD []).head? = some '!') :
    ∀ (rem : List Str) (i : Nat) (st st2 : MState),
    rem = sLabels.drop i → rootInv dLabels st →
    matchStep domain dLabels cTyp sLabels.length rem i st = some st2 →
    rootInv dLabels st2 := by
  intro rem
  induction rem with
  | nil =>
    intro i st st2 _ hinv hrun
    injection hrun with hrun
    rw [← hrun]
    exact hinv
  | cons label rest ih =>
    intro i st st2 hdrop hinv hrun
    have hdrop2 : rest = sLabels.drop (i + 1) := by
      have := congrArg List.tail hdrop
      simpa [List.tail_drop] using this
    have hiLt : i < sLabels.length := by
      by_contra hge
      have : sLabels.drop i = [] := List.drop_eq_nil_of_le (by omega)
      rw [← hdrop] at this
      cases this
    simp only [matchStep] at hrun
    by_cases hcond : label = dLabels.getD i [] ∨ label = ['*'] ∨
        label.dropWhile (fun c => c = '!') = dLabels.getD i []
    swap
    · rw [if_neg hcond] at hrun
      injection hrun with hrun
      rw [← hrun]
      exact hinv
    rw [if_pos hcond] at hrun
    by_cases hi : i = sLabels.length - 1
    swap
    · rw [if_neg hi] at hrun
      exact ih (i + 1) st st2 hdrop2 hinv hrun
    rw [if_pos hi] at hrun
    by_cases hnum : st.numLabels ≤ sLabels.length
    swap
    · rw [if_neg hnum] at hrun
      exact ih (i + 1) st st2 hdrop2 hinv hrun
    rw [if_pos hnum] at hrun
    by_cases hbl : label.head? = some '!'
    · -- exception label: the suffix drops one label
      have h2le : 2 ≤ sLabels.length := by
        rcases Nat.lt_or_ge sLabels.length 2 with hl | hl
        · exfalso
          have hone1 : sLabels.length = 1 := by omega
          obtain ⟨x, hx⟩ := List.length_eq_one.mp hone1
          have hi0 : i = 0 := by omega
          rw [hx] at hdrop
          rw [hi0] at hdrop
          simp only [List.drop_zero] at hdrop
          injection hdrop with h1 h2
          apply hone hone1
          rw [hx, ← h1]
          exact hbl
        · exact hl
      have hasm : assemble domain (sLabels.length - 1) =
          some (intercalateDots ((dLabels.take (sLabels.length - 1)).reverse)) := by
        rw [hassem]
        rw [if_pos (by omega)]
      simp only [if_pos hbl, hasm] at hrun
      have hc1 : (splitDots (intercalateDots
          ((dLabels.take (sLabels.length - 1)).reverse))).length =
          sLabels.length - 1 := hcount _ (by omega) (by omega)
      by_cases hlt : sLabels.length - 1 < dLabels.length
      · have hasm2 : assemble domain (sLabels.length - 1 + 1) =
            some (intercalateDots ((dLabels.take (sLabels.length - 1 + 1)).reverse)) := by
          rw [hassem]
          rw [if_pos (by omega)]
        simp only [if_pos hlt, hasm2] at hrun
        refine ih (i + 1) _ st2 hdrop2 ?_ hrun
        show (_ : Prop)
        simp only [rootInv, Option.isSome_some, hc1]
        exact ⟨fun _ => hlt, fun _ => trivial⟩
      · simp only [if_neg hlt, hasm] at hrun
        refine ih (i + 1) _ st2 hdrop2 ?_ hrun
        simp only [rootInv, Option.isSome_none, hc1]
        constructor
        · intro hh
          cases hh
        · intro hh
          exact absurd hh hlt
    · -- ordinary label: the suffix keeps every matched label
      have hasm : assemble domain sLabels.length =
          some (intercalateDots ((dLabels.take sLabels.length).reverse)) := by
        rw [hassem]
        rw [if_pos hlen]
      simp only [if_neg hbl, hasm] at hrun
      have hc1 : (splitDots (intercalateDots
          ((dLabels.take sLabels.length).reverse))).length =
          sLabels.length := hcount _ (by omega) hlen
      by_cases hlt : sLabels.length < dLabels.length
      · have hasm2 : assemble domain (sLabels.length + 1) =
            some (intercalateDots ((dLabels.take (sLabels.length + 1)).reverse)) := by
          rw [hassem]
          rw [if_pos (by omega)]
        simp only [if_pos hlt, hasm2] at hrun
        refine ih (i + 1) _ st2 hdrop2 ?_ hrun
        simp only [rootInv, Option.isSome_some, hc1]
        exact ⟨fun _ => hlt, fun _ => trivial⟩
      · simp only [if_neg hlt, hasm] at hrun
        refine ih (i + 1) _ st2 hdrop2 ?_ hrun
        simp only [rootInv, Option.isSome_none, hc1]
        constructor
        · intro hh
          cases hh
        · intro hh
          exact absurd hh hlt

theorem candLoop_rootInv (domain : Str) (dLabels : List Str)
    (hassem : ∀ k, assemble domain k =
      if k ≤ dLabels.length then
        some (intercalateDots ((dLabels.take k).reverse)) else none)
    (hcount : ∀ k, 1 ≤ k → k ≤ dLabels.length →
      (splitDots (intercalateDots ((dLabels.take k).reverse))).length = k) :
    ∀ (cands : List Suffix),
    (∀ c ∈ cands, ¬((splitDots c.rule).reverse.headD []).head? = some '!') →
    ∀ st st2, rootInv dLabels st →
    candLoop domain dLabels cands st = some st2 → rootInv dLabels st2 := by
  intro cands
  induction cands with
  | nil =>
    intro _ st st2 hinv hrun
    injection hrun with hrun
    rw [← hrun]
    exact hinv
  | cons c cs ih =>
    intro hc st st2 hinv hrun
    simp only [candLoop] at hrun
    by_cases hskip : dLabels.length < ((splitDots c.rule).reverse).length
    · rw [if_pos hskip] at hrun
      exact ih (fun c2 h2 => hc c2 (List.mem_cons_of_mem c h2)) st st2 hinv hrun
    · rw [if_neg hskip] at hrun
      cases hms : matchStep domain dLabels c.typ
          ((splitDots c.rule).reverse).length ((splitDots c.rule).reverse) 0 st with
      | none => rw [hms] at hrun; cases hrun
      | some stm =>
        rw [hms] at hrun
        have hinv2 : rootInv dLabels stm := by
          refine matchStep_rootInv domain dLabels c.typ
            ((splitDots c.rule).reverse) hassem hcount
            (Nat.le_of_not_lt hskip) ?_ ((splitDots c.rule).reverse) 0 st stm
            (by rw [List.drop_zero]) hinv hms
          intro _
          exact hc c (List.mem_cons_self c cs)
        exact ih (fun c2 h2 => hc c2 (List.mem_cons_of_mem c h2)) stm st2 hinv2 hrun

/-- C7: for every domain parsed against a well-formed list (bucket keys
are rightmost rule labels, as `List::append` guarantees) with a
canonical input (no `!`, already lowercase, no trailing dot, as
`Domain::parse` guarantees when it hands `find_match` its input), the
registrable root is present exactly when the input has strictly more
labels than the matched suffix; with no suffix there is no root. -/
theorem c7_root_iff_more_labels (l : PslList) (domain : Str) (d : Domain)
    (hwf : bucketsWellFormed l) (hbang : '!' ∉ domain)
    (hlower : toLowerStr domain = domain) (htrim : trimRightDots domain = domain)
    (hp : parseNoIdna l domain = some d) :
    d.registrable.isSome = true ↔
      ∃ suf, d.suffix = some suf ∧
        (splitDots suf).length < (splitDots domain).length := by
  have hassem := assemble_eq domain hlower htrim
  have hcount := assembled_label_count ((splitDots domain).reverse) domain rfl
  have hlenrev : ((splitDots domain).reverse).length = (splitDots domain).length :=
    List.length_reverse _
  have hdlen1 : 1 ≤ ((splitDots domain).reverse).length := by
    have h0 : 0 < (splitDots domain).length :=
      List.length_pos.mpr (splitChar_ne_nil '.' domain)
    omega
  have hcands : ∀ c ∈ findPossibleMatches domain l,
      ¬((splitDots c.rule).reverse.headD []).head? = some '!' := by
    intro c hc
    unfold findPossibleMatches at hc
    by_cases htld : lastLabel domain = []
    · rw [if_pos htld] at hc
      cases hc
    · rw [if_neg htld] at hc
      cases hlb : lookupBucket l.rules (lastLabel domain) with
      | none => rw [hlb] at hc; cases hc
      | some cs =>
        rw [hlb] at hc
        have hmem := lookupBucket_mem l.rules (lastLabel domain) cs hlb
        have hlast : lastLabel c.rule = lastLabel domain :=
          hwf (lastLabel domain, cs) hmem c hc
        have hhd : (splitDots c.rule).reverse.headD [] = lastLabel c.rule := rfl
        rw [hhd, hlast]
        apply head_not_bang domain hbang
        unfold lastLabel
        cases hsd : (splitDots domain).reverse with
        | nil =>
          exact absurd (by simpa using congrArg List.reverse hsd)
            (splitChar_ne_nil '.' domain)
        | cons x xs =>
          have hx : x ∈ (splitDots domain).reverse := by
            rw [hsd]
            exact List.mem_cons_self x xs
          exact List.mem_reverse.mp hx
  simp only [parseNoIdna, findMatch] at hp
  cases hcl : candLoop domain ((splitDots domain).reverse)
      (findPossibleMatches domain l) mInit with
  | none => simp [hcl] at hp
  | some st =>
    simp only [hcl] at hp
    have hinv : rootInv ((splitDots domain).reverse) st :=
      candLoop_rootInv domain _ hassem hcount _ hcands mInit st
        (by simp [rootInv, mInit]) hcl
    by_cases hfb : st.suffix = none ∧ 1 < ((splitDots domain).reverse).length ∧
        findPossibleMatches domain l = []
    · rw [if_pos hfb] at hp
      have ha1 : assemble domain 1 =
          some (intercalateDots ((((splitDots domain).reverse).take 1).reverse)) := by
        rw [hassem]
        rw [if_pos (by omega)]
      have ha2 : assemble domain 2 =
          some (intercalateDots ((((splitDots domain).reverse).take 2).reverse)) := by
        rw [hassem]
        rw [if_pos (by have := hfb.2.1; omega)]
      simp only [ha1, ha2] at hp
      injection hp with hp
      rw [← hp]
      constructor
      · intro _
        refine ⟨_, rfl, ?_⟩
        rw [hcount 1 (by omega) (by omega)]
        have := hfb.2.1
        omega
      · intro _
        rfl
    · rw [if_neg hfb] at hp
      injection hp with hp
      rw [← hp]
      unfold rootInv at hinv
      cases hsuf : st.suffix with
      | none =>
        rw [hsuf] at hinv
        simp only [hsuf, hinv]
        constructor
        · intro h
          cases h
        · rintro ⟨suf, hs, -⟩
          cases hs
      | some suf =>
        rw [hsuf] at hinv
        simp only [hsuf]
        constructor
        · intro h
          exact ⟨suf, rfl, by rw [← hlenrev]; exact hinv.mp h⟩
        · rintro ⟨suf2, hs2, hlt⟩
          injection hs2 with hs2
          subst hs2
          exact hinv.mpr (by rw [hlenrev]; exact hlt)

/-- A one-rule list holding only the TLD rule `com`. -/
def comList : PslList := ⟨[(strL "com", [⟨strL "com", PslType.Icann⟩])]⟩

/-- Witness for C7: parsing the input `com`, equal to the listed TLD,
yields suffix `com` and no root, and satisfies the root-iff property. -/
theorem c7_root_iff_more_labels_witness :
    parseNoIdna comList (strL "com") =
      some ⟨strL "com", some PslType.Icann, some (strL "com"), none⟩ ∧
    ((⟨strL "com", some PslType.Icann, some (strL "com"), none⟩ :
        Domain).registrable.isSome = true ↔
      ∃ suf, (⟨strL "com", some PslType.Icann, some (strL "com"), none⟩ :
          Domain).suffix = some suf ∧
        (splitDots suf).length < (splitDots (strL "com")).length) :=
  ⟨by decide,
   c7_root_iff_more_labels comList (strL "com")
     ⟨strL "com", some PslType.Icann, some (strL "com"), none⟩
     (by unfold bucketsWellFormed; decide) (by decide) (by decide) (by decide)
     (by decide)⟩

/-- Rule set of the exception scenario: `!foo.example.com` and
`example.com`, both ICANN, bucketed under their shared rightmost label. -/
def exceptionList : PslList :=
  ⟨[(strL "com",
     [⟨strL "!foo.example.com", PslType.Icann⟩,
      ⟨strL "example.com", PslType.Icann⟩])]⟩

/-- C3: against a list holding the exception rule `!foo.example.com` and
the rule `example.com`, parsing `foo.example.com` yields the suffix
`example.com` (the exception label `foo` is excluded), and in particular
not `foo.example.com`. -/
theorem c3_exception_excludes_label :
    parseNoIdna exceptionList (strL "foo.example.com") =
      some ⟨strL "foo.example.com", some PslType.Icann,
        some (strL "example.com"), some (strL "foo.example.com")⟩ ∧
    (parseNoIdna exceptionList (strL "foo.example.com")).bind Domain.suffix ≠
      some (strL "foo.example.com") := by
  decide

/-- C8: the lookup is not total.  `Domain::assemble` slices the first
`s_len` labels of the raw `input` while `s_len` is bounded by the label
count of the processed `domain`; UTS46 maps the ideographic full stop
to a dot, so `parse_domain` on the valid-syntax input `a。b` (against any
list with no rule bucketed under `b`) reaches `find_match` with
`input = "a。b"` (one label) and `domain = "a.b"` (two labels), and the
implicit-default branch calls `assemble(input, 2)`, an out-of-bounds
slice (a panic, modelled as `none`). -/
theorem c8_assemble_out_of_bounds :
    assemble (strL "a。b") 2 = none ∧
    findMatch (strL "a。b") (strL "a.b") [] = none := by
  decide

/-- C9: `List::build` is a function of the input text, so two builds of
the same text give lists with identical lookup results on every query. -/
theorem c9_build_deterministic (lines : List Str) (l1 l2 : PslList)
    (h1 : build lines = .ok l1) (h2 : build lines = .ok l2) :
    ∀ domain : Str, parseNoIdna l1 domain = parseNoIdna l2 domain := by
  intro domain
  rw [h1] at h2
  injection h2 with h
  rw [h]

/-- A two-section list text accepted by `List::build`. -/
def twoSectionLines : List Str :=
  [strL "// BEGIN ICANN DOMAINS", strL "com.uk",
   strL "// BEGIN PRIVATE DOMAINS", strL "platform.sh"]

/-- The list built from `twoSectionLines`. -/
def twoSectionList : PslList :=
  ⟨[(strL "uk", [⟨strL "com.uk", .Icann⟩]),
    (strL "sh", [⟨strL "platform.sh", .Private⟩])]⟩

/-- Witness for C9 at a concrete text and query. -/
theorem c9_build_deterministic_witness :
    build twoSectionLines = .ok twoSectionList ∧
    parseNoIdna twoSectionList (strL "foo.com.uk") =
      parseNoIdna twoSectionList (strL "foo.com.uk") :=
  ⟨by decide,
   c9_build_deterministic twoSectionLines twoSectionList twoSectionList
     (by decide) (by decide) (strL "foo.com.uk")⟩

/-- The construction-time error type of the trie-based core, embedded
from `src/src/error.rs` (`enum Error`). -/
inductive PslError where
  | emptyLabel (r : Str)
  | exceptionAtFirstLabel (r : Str)
  | invalidList
  | invalidRule (r : Str)
  | listNotUtf8Encoded
deriving DecidableEq

/-- Modelled from the spec: the trie core's own `lib.rs` is not under
`src/` (only its error type, case key and tests are); per spec section 3
a leaf marks end-of-rule with an exception flag and a section type. -/
structure Leaf where
  isException : Bool
  typ : Option PslType
deriving DecidableEq

/-- Modelled from the spec (section 3, RuleTrie Node): children keyed by
label (the case-sensitive instance of section 4.1) plus an optional
leaf. -/
inductive Node where
  | mk (children : List (Str × Node)) (leaf : Option Leaf)

/-- Children of a trie node. -/
def Node.children : Node → List (Str × Node)
  | .mk cs _ => cs

/-- Leaf of a trie node. -/
def Node.leaf : Node → Option Leaf
  | .mk _ lf => lf

/-- The empty trie node. -/
def emptyNode : Node := .mk [] none

/-- Child lookup by exact label equality. -/
def findChild : List (Str × Node) → Str → Option Node
  | [], _ => none
  | (k, n) :: rest, key => if k = key then some n else findChild rest key

/-- Replace the child at a key, or add it. -/
def setChild : List (Str × Node) → Str → Node → List (Str × Node)
  | [], key, n => [(key, n)]
  | (k, n0) :: rest, key, n =>
    if k = key then (k, n) :: rest else (k, n0) :: setChild rest key n

/-- Modelled from the spec (section 4.1): insert a rule's labels, given
rightmost-first, creating nodes as needed; the terminal node's leaf is
overwritten (last-write-wins). -/
def insertRule : Node → List Str → Leaf → Node
  | n, [], lf => .mk n.children (some lf)
  | n, l :: rest, lf =>
    .mk (setChild n.children l
      (insertRule ((findChild n.children l).getD emptyNode) rest lf)) n.leaf

/-- Modelled from the spec (section 4.1): append one rule under the
current section type: strip a leading exception marker, failing with
`ExceptionAtFirstLabel` when the stripped rule has no dot; reject empty
labels with `EmptyLabel`; insert labels right to left with leaf
`(is_exception, section type)`. -/
def trieAppend (root : Node) (rule : Str) (typ : PslType) : Except PslError Node :=
  if rule.head? = some '!' then
    if '.' ∈ rule.tail then
      if [] ∈ splitDots rule.tail then .error (.emptyLabel rule)
      else .ok (insertRule root (splitDots rule.tail).reverse ⟨true, some typ⟩)
    else .error (.exceptionAtFirstLabel rule)
  else
    if [] ∈ splitDots rule then .error (.emptyLabel rule)
    else .ok (insertRule root (splitDots rule).reverse ⟨false, some typ⟩)

/-- Modelled from the spec (sections 4.1 and 6): one line of the trie
builder: marker lines switch the section, comment lines are skipped,
otherwise the first whitespace token is appended as a rule when a
section is active (section 3: a rule belongs to the section under which
it appeared). -/
def trieBuildLine (st : Option PslType × Node) (line : Str) :
    Except PslError (Option PslType × Node) :=
  if containsStr line icannMarker then .ok (some .Icann, st.2)
  else if containsStr line privateMarker then .ok (some .Private, st.2)
  else if startsWithStr line (strL "//") then .ok st
  else
    match firstToken line with
    | none => .ok st
    | some rule =>
      match st.1 with
      | none => .ok st
      | some t =>
        match trieAppend st.2 rule t with
        | .error e => .error e
        | .ok n => .ok (st.1, n)

/-- The line loop of the trie builder. -/
def trieBuildFold : List Str → (Option PslType × Node) →
    Except PslError (Option PslType × Node)
  | [], st => .ok st
  | line :: rest, st =>
    match trieBuildLine st line with
    | .error e => .error e
    | .ok st2 => trieBuildFold rest st2

/-- Modelled from the spec (section 4.1): build the trie from the line
list, failing with `InvalidList` when the resulting trie is empty (no
wildcard pre-seeding in this instance). -/
def trieBuild (lines : List Str) : Except PslError Node :=
  match trieBuildFold lines (none, emptyNode) with
  | .error e => .error e
  | .ok (_, n) => if n.children.isEmpty then .error .invalidList else .ok n

/-- Modelled from the spec (section 3, Info/MatchResult): matched byte
length within the input and the suffix type. -/
structure Info where
  len : Nat
  typ : Option PslType
deriving DecidableEq

/-- Modelled from the spec (section 4.2, steps 3-5): walk the remaining
labels right to left; exact child first, wildcard child as fallback,
stop when neither exists; on a leaf hit, an exception is terminal with
the pre-advance length, any other leaf extends the recorded match by
the label and its separating dot. -/
def findLoop : Node → Nat → Info → List Str → Info
  | _, _, info, [] => info
  | cur, len, info, label :: rest =>
    match findChild cur.children label with
    | some child =>
      match child.leaf with
      | none => findLoop child (len + 1 + byteLen label) info rest
      | some lf =>
        if lf.isException then ⟨len, lf.typ⟩
        else findLoop child (len + 1 + byteLen label)
          ⟨len + 1 + byteLen label, lf.typ⟩ rest
    | none =>
      match findChild cur.children ['*'] with
      | some child =>
        match child.leaf with
        | none => findLoop child (len + 1 + byteLen label) info rest
        | some lf =>
          if lf.isException then ⟨len, lf.typ⟩
          else findLoop child (len + 1 + byteLen label)
            ⟨len + 1 + byteLen label, lf.typ⟩ rest
      | none => info

/-- Modelled from the spec (section 4.2, steps 1-2): `find` on a
right-to-left label sequence: empty input gives the zero match, an
unmatched first label gives the implicit single-label default (its own
byte length, no type), a matched first label starts the walk with its
length and the node's leaf type recorded. -/
def trieFind (root : Node) (labels : List Str) : Info :=
  match labels with
  | [] => ⟨0, none⟩
  | first :: rest =>
    match findChild root.children first with
    | none => ⟨byteLen first, none⟩
    | some child =>
      findLoop child (byteLen first)
        ⟨byteLen first,
         match child.leaf with
         | some lf => lf.typ
         | none => none⟩ rest

/-- Rust-style whitespace trim at both ends. -/
def trimWsStr (s : Str) : Str :=
  ((s.dropWhile Char.isWhitespace).reverse.dropWhile Char.isWhitespace).reverse

/-- Drop at most one trailing dot (spec section 4.3). -/
def trimOneTrailingDot (s : Str) : Str :=
  if s.getLast? = some '.' then s.dropLast else s

/-- The tail of `s` whose UTF-8 byte length is exactly `n`, obtained by
dropping characters from the front (the matched-length-byte tail of
spec section 3); `none` when no boundary yields exactly `n` bytes. -/
def utf8Tail : Str → Nat → Option Str
  | [], n => if byteLen ([] : Str) = n then some [] else none
  | c :: rest, n =>
    if byteLen (c :: rest) = n then some (c :: rest) else utf8Tail rest n

/-- Modelled from the spec (section 3, Domain): the derived view over an
input and its match result. -/
structure SpecDomain where
  fullInput : Str
  typ : Option PslType
  suffix : Option Str
  root : Option Str
deriving DecidableEq

/-- Modelled from the spec (section 4.3): trim whitespace and at most
one trailing dot, split into labels, feed them right to left to `find`,
derive the suffix as the matched-length byte tail and the root as the
suffix plus one more label when one exists beyond it. -/
def specDomain (rootN : Node) (input : Str) : SpecDomain :=
  let domain := trimOneTrailingDot (trimWsStr input)
  let labels := splitDots domain
  let info := trieFind rootN labels.reverse
  let suffix := utf8Tail domain info.len
  let root :=
    match suffix with
    | none => none
    | some suf =>
      if (splitDots suf).length < labels.length then
        some (intercalateDots
          (labels.drop (labels.length - ((splitDots suf).length + 1))))
      else none
  ⟨input, info.typ, suffix, root⟩

/-- The successful payload of an `Except`. -/
def exceptOk {e a : Type} : Except e a → Option a
  | .ok x => some x
  | .error _ => none

/-- The error payload of an `Except`. -/
def exceptErr {e a : Type} : Except e a → Option e
  | .error x => some x
  | .ok _ => none

theorem utf8Tail_full (s : Str) : utf8Tail s (byteLen s) = some s := by
  cases s with
  | nil => simp [utf8Tail]
  | cons c rest => simp [utf8Tail]

/-- C2: against the trie built from the single ICANN rule `com.uk`,
`find` on the labels of `localhost` gives length 9 and no type, on the
labels of `uk` gives length 2 and no type, and on the labels of
`com.uk` gives length 6 and type ICANN. -/
theorem c2_one_rule_concrete :
    (exceptOk (trieBuild [strL "// BEGIN ICANN DOMAINS", strL "com.uk"])).map
        (fun n => (trieFind n [strL "localhost"], trieFind n [strL "uk"],
          trieFind n [strL "uk", strL "com"])) =
      some (⟨9, none⟩, ⟨2, none⟩, ⟨6, some PslType.Icann⟩) := by
  decide

/-- C1: for any trie and any single-label input whose label is not a
child of the root (no rule matches it), `find` returns the label's byte
length with no type, and the domain view still has that label as its
suffix, with no root. -/
theorem c1_default_single_label (rootN : Node) (input : Str)
    (hne : input ≠ []) (hdot : '.' ∉ input)
    (hclean : trimOneTrailingDot (trimWsStr input) = input)
    (hnomatch : findChild rootN.children input = none) :
    trieFind rootN [input] = ⟨byteLen input, none⟩ ∧
    specDomain rootN input = ⟨input, none, some input, none⟩ := by
  have hfind : trieFind rootN [input] = ⟨byteLen input, none⟩ := by
    simp only [trieFind, hnomatch]
  refine ⟨hfind, ?_⟩
  have hsingle : splitDots input = [input] :=
    splitChar_of_not_mem '.' input hdot
  simp only [specDomain, hclean, hsingle]
  rw [show ([input] : List Str).reverse = [input] from rfl, hfind]
  rw [utf8Tail_full input]
  simp [hsingle]

/-- The trie of the single ICANN rule `com.uk`. -/
def comUkTrie : Node :=
  .mk [(strL "uk",
    .mk [(strL "com", .mk [] (some ⟨false, some PslType.Icann⟩))] none)] none

/-- Witness for C1 at the input `localhost` against the `com.uk` trie. -/
theorem c1_default_single_label_witness :
    strL "localhost" ≠ [] ∧ '.' ∉ strL "localhost" ∧
    trimOneTrailingDot (trimWsStr (strL "localhost")) = strL "localhost" ∧
    (trieFind comUkTrie [strL "localhost"] = ⟨9, none⟩ ∧
     specDomain comUkTrie (strL "localhost") =
       ⟨strL "localhost", none, some (strL "localhost"), none⟩) :=
  ⟨by decide, by decide, by decide, by
    have h := c1_default_single_label comUkTrie (strL "localhost")
      (by decide) (by decide) (by decide) rfl
    rw [show byteLen (strL "localhost") = 9 from rfl] at h
    exact h⟩

/-- C5: when the line loop reaches the rule `!com` with a section
active, the build fails with `ExceptionAtFirstLabel` on that rule (and
the error propagates past any later lines). -/
theorem c5_exception_at_first_label (pre post : List Str) (t : PslType)
    (n : Node) (hpre : trieBuildFold pre (none, emptyNode) = .ok (some t, n)) :
    exceptErr (trieBuild (pre ++ strL "!com" :: post)) =
      some (.exceptionAtFirstLabel (strL "!com")) := by
  have happ : ∀ (a b : List Str) (st : Option PslType × Node),
      trieBuildFold (a ++ b) st =
        match trieBuildFold a st with
        | .error e => .error e
        | .ok st2 => trieBuildFold b st2 := by
    intro a
    induction a with
    | nil => intro b st; rfl
    | cons line rest ih =>
      intro b st
      simp only [List.cons_append, trieBuildFold]
      cases hl : trieBuildLine st line with
      | error e => rfl
      | ok st2 => exact ih b st2
  have hline : trieBuildLine (some t, n) (strL "!com") =
      .error (.exceptionAtFirstLabel (strL "!com")) := rfl
  have hfold : trieBuildFold (pre ++ strL "!com" :: post) (none, emptyNode) =
      .error (.exceptionAtFirstLabel (strL "!com")) := by
    rw [happ pre (strL "!com" :: post) (none, emptyNode), hpre]
    show trieBuildFold (strL "!com" :: post) (some t, n) = _
    unfold trieBuildFold
    rw [hline]
  unfold trieBuild
  rw [hfold]
  rfl

/-- Witness for C5: an ICANN section marker line followed by `!com`. -/
theorem c5_exception_at_first_label_witness :
    exceptErr (trieBuild [strL "// BEGIN ICANN DOMAINS", strL "!com"]) =
      some (.exceptionAtFirstLabel (strL "!com")) :=
  c5_exception_at_first_label [strL "// BEGIN ICANN DOMAINS"] []
    PslType.Icann emptyNode rfl

theorem insertBucket_wf {rules : List (Str × List Suffix)} {k : Str}
    {s : Suffix}
    (hr : ∀ kv ∈ rules, ∀ s2 ∈ kv.2, lastLabel s2.rule = kv.1)
    (hs : lastLabel s.rule = k) :
    ∀ kv ∈ insertBucket rules k s, ∀ s2 ∈ kv.2, lastLabel s2.rule = kv.1 := by
  induction rules with
  | nil =>
    intro kv hkv s2 hs2
    simp only [insertBucket, List.mem_singleton] at hkv
    subst hkv
    simp only [List.mem_singleton] at hs2
    subst hs2
    exact hs
  | cons kv0 rest ih =>
    obtain ⟨k0, v0⟩ := kv0
    intro kv hkv s2 hs2
    simp only [insertBucket] at hkv
    by_cases hk : k0 = k
    · rw [if_pos hk] at hkv
      rcases List.mem_cons.mp hkv with h | h
      · subst h
        rcases List.mem_append.mp hs2 with h2 | h2
        · exact hr (k0, v0) (List.mem_cons_self _ _) s2 h2
        · simp only [List.mem_singleton] at h2
          subst h2
          rw [hs, hk]
      · exact hr kv (List.mem_cons_of_mem _ h) s2 hs2
    · rw [if_neg hk] at hkv
      rcases List.mem_cons.mp hkv with h | h
      · subst h
        exact hr (k0, v0) (List.mem_cons_self _ _) s2 hs2
      · exact ih (fun kv2 h2 => hr kv2 (List.mem_cons_of_mem _ h2)) kv h s2 hs2

theorem buildFold_wf (lines : List Str) :
    ∀ (typ : Option PslType) (m : PslList) (st : Option PslType × PslList),
    bucketsWellFormed m → buildFold lines (typ, m) = .ok st →
    bucketsWellFormed st.2 := by
  induction lines with
  | nil =>
    intro typ m st hm hf
    injection hf with hf
    rw [← hf]
    exact hm
  | cons line rest ih =>
    intro typ m st hm hf
    unfold buildFold buildLine at hf
    by_cases hic : containsStr line icannMarker = true
    · simp only [hic, if_pos rfl] at hf
      exact ih (some .Icann) m st hm hf
    · by_cases hpr : containsStr line privateMarker = true
      · simp only [hic, hpr, if_neg, if_pos rfl] at hf
        exact ih (some .Private) m st hm hf
      · by_cases hsw : startsWithStr line (strL "//") = true
        · simp only [hic, hpr, hsw, if_neg, if_pos rfl] at hf
          exact ih typ m st hm hf
        · cases hft : firstToken line with
          | none =>
            simp only [hic, hpr, hsw, hft, if_neg] at hf
            exact ih typ m st hm hf
          | some rule =>
            cases htyp : typ with
            | none =>
              simp only [hic, hpr, hsw, hft, htyp, if_neg] at hf
              exact ih none m st hm hf
            | some t =>
              simp only [hic, hpr, hsw, hft, htyp, if_neg] at hf
              unfold appendRule at hf
              by_cases htld : lastLabel rule = []
              · simp [htld] at hf
              · simp only [htld, if_neg] at hf
                exact ih (some t)
                  ⟨insertBucket m.rules (lastLabel rule) ⟨rule, t⟩⟩ st
                  (insertBucket_wf hm rfl) hf

/-- `List::build` establishes the bucket-key invariant assumed by the
root/suffix theorem: every stored rule sits in the bucket keyed by its
rightmost label. -/
theorem build_wf (lines : List Str) (l : PslList) (h : build lines = .ok l) :
    bucketsWellFormed l := by
  unfold build at h
  cases hf : buildFold lines (none, ⟨[]⟩) with
  | error e => simp [hf] at h
  | ok st =>
    obtain ⟨tS, mS⟩ := st
    simp only [hf] at h
    by_cases hc : mS.rules = [] ∨ icannRules mS = [] ∨ privateRules mS = []
    · rw [if_pos hc] at h
      cases h
    · rw [if_neg hc] at h
      injection h with h
      rw [← h]
      exact buildFold_wf lines none ⟨[]⟩ (tS, mS) (fun kv hkv => by cases hkv) hf
